import Mathlib

/-!
Verification of `cmd/log-analyzer/main.go`.

The development shallowly embeds the program: Go strings are modelled as
`List Char` (every input relevant to the claims is ASCII, where Go bytes and
runes coincide), `float64` response-time samples as exact rationals `ℚ`
(`strconv.ParseFloat` is modelled on its finite decimal fragment), fallible
functions return `Option`/`Except`, and the input file is modelled as the
list of its lines (the `bufio.Scanner` loop visits exactly the lines).
-/

/-- Digit test and value, as Go's byte comparison `'0' <= c && c <= '9'`
(function `isDigit` of the `time` package) together with the value `c - '0'`. -/
def charDigit? (c : Char) : Option Nat :=
  if c = '0' then some 0
  else if c = '1' then some 1
  else if c = '2' then some 2
  else if c = '3' then some 3
  else if c = '4' then some 4
  else if c = '5' then some 5
  else if c = '6' then some 6
  else if c = '7' then some 7
  else if c = '8' then some 8
  else if c = '9' then some 9
  else none

/-- Character of a decimal digit, as Go's byte arithmetic `'0' + d`
(only applied to values below 10; the final catch-all is unreachable there). -/
def digitCh (d : Nat) : Char :=
  match d with
  | 0 => '0' | 1 => '1' | 2 => '2' | 3 => '3' | 4 => '4'
  | 5 => '5' | 6 => '6' | 7 => '7' | 8 => '8' | 9 => '9'
  | _ => '0'

/-- Go `time` package `getnum(value, true)`: exactly two digit characters. -/
def getnum2 : List Char → Option (Nat × List Char)
  | c1 :: c2 :: rest =>
    match charDigit? c1, charDigit? c2 with
    | some d1, some d2 => some (10 * d1 + d2, rest)
    | _, _ => none
  | _ => none

/-- Go `time` package `getnum(value, false)`: one digit character, or two when
the second character is also a digit. -/
def getnum12 : List Char → Option (Nat × List Char)
  | [] => none
  | [c1] =>
    match charDigit? c1 with
    | some d1 => some (d1, [])
    | none => none
  | c1 :: c2 :: rest =>
    match charDigit? c1 with
    | none => none
    | some d1 =>
      match charDigit? c2 with
      | some d2 => some (10 * d1 + d2, rest)
      | none => some (d1, c2 :: rest)

/-- Go `time` package handling of the `2006` layout element: four characters,
the first a digit, the whole group read by `atoi` (so all four are digits). -/
def getnum4 : List Char → Option (Nat × List Char)
  | c1 :: c2 :: c3 :: c4 :: rest =>
    match charDigit? c1, charDigit? c2, charDigit? c3, charDigit? c4 with
    | some d1, some d2, some d3, some d4 =>
      some (((d1 * 10 + d2) * 10 + d3) * 10 + d4, rest)
    | _, _, _, _ => none
  | _ => none

/-- Match one literal layout character (the `-` and `:` separators). -/
def expectChar (c : Char) : List Char → Option (List Char)
  | [] => none
  | x :: rest => if x = c then some rest else none

/-- Drop every leading space, as `cutspace` of the Go `time` package. -/
def cutspace : List Char → List Char
  | c :: rest => if c = ' ' then cutspace rest else c :: rest
  | [] => []

/-- Go `time` package `skip` on a one-space layout chunk: the value may be
empty, or must start with a space, and then every leading space is consumed. -/
def skipLayoutSpace : List Char → Option (List Char)
  | [] => some []
  | c :: rest => if c = ' ' then some (cutspace rest) else none

/-- Longest digit-character prefix and its list of digit values. -/
def takeDigits : List Char → List Nat × List Char
  | [] => ([], [])
  | c :: rest =>
    match charDigit? c with
    | none => ([], c :: rest)
    | some d =>
      match takeDigits rest with
      | (ds, rest') => (d :: ds, rest')

/-- Numeric value of a list of digit values, most significant first. -/
def digitsVal (ds : List Nat) : Nat :=
  ds.foldl (fun acc d => 10 * acc + d) 0

/-- Nanosecond value of a fractional-second digit group, as the Go `time`
package `parseNanoseconds`: at most nine digits are significant, scaled so
that one digit means tenths of a second. -/
def nsecOfDigits (ds : List Nat) : Nat :=
  digitsVal (ds.take 9) * 10 ^ (9 - min ds.length 9)

/-- Go `time.Parse` handling of an unasked-for fractional second directly
after the seconds: when the value continues with `.` or `,` followed by a
digit, the point and every following digit are consumed and give the
nanoseconds; otherwise nothing is consumed. -/
def fracStep : List Char → Nat × List Char
  | p :: d :: rest =>
    if (p = '.' ∨ p = ',') ∧ (charDigit? d).isSome then
      match takeDigits (d :: rest) with
      | (ds, rest') => (nsecOfDigits ds, rest')
    else (0, p :: d :: rest)
  | v => (0, v)

/-- Wall-clock timestamp as produced by `time.Parse` for the `time.DateTime`
layout: year, month, day, hour, minute, second, nanosecond. -/
structure GoTime where
  year : Nat
  month : Nat
  day : Nat
  hour : Nat
  minute : Nat
  second : Nat
  nsec : Nat
deriving DecidableEq

/-- Zero value of Go `time.Time`: January 1 of year 1, 00:00:00 UTC. -/
def GoTime.zero : GoTime := ⟨1, 1, 1, 0, 0, 0, 0⟩

/-- Leap-year test of the Go `time` package. -/
def isLeap (year : Nat) : Bool :=
  year % 4 = 0 ∧ (year % 100 ≠ 0 ∨ year % 400 = 0)

/-- Days in a month, as `daysIn` of the Go `time` package. -/
def daysIn (month year : Nat) : Nat :=
  if month = 2 then (if isLeap year then 29 else 28)
  else if month = 4 ∨ month = 6 ∨ month = 9 ∨ month = 11 then 30
  else 31

/-- Go `time.Parse(time.DateTime, v)`, i.e. layout `2006-01-02 15:04:05`:
four digits of year, literal `-`, two digits of month (range-checked 1..12),
literal `-`, two digits of day, a space chunk, one or two digits of hour
(range-checked 0..23), literal `:`, two digits of minute (0..59), literal
`:`, two digits of second (0..59), an optional fractional second, no
remaining text, and the day checked against the month's length. -/
def goParseDateTime (v : List Char) : Option GoTime :=
  match getnum4 v with
  | none => none
  | some (year, v1) =>
  match expectChar '-' v1 with
  | none => none
  | some v2 =>
  match getnum2 v2 with
  | none => none
  | some (month, v3) =>
  if month < 1 ∨ 12 < month then none else
  match expectChar '-' v3 with
  | none => none
  | some v4 =>
  match getnum2 v4 with
  | none => none
  | some (day, v5) =>
  match skipLayoutSpace v5 with
  | none => none
  | some v6 =>
  match getnum12 v6 with
  | none => none
  | some (hour, v7) =>
  if 24 ≤ hour then none else
  match expectChar ':' v7 with
  | none => none
  | some v8 =>
  match getnum2 v8 with
  | none => none
  | some (minute, v9) =>
  if 60 ≤ minute then none else
  match expectChar ':' v9 with
  | none => none
  | some v10 =>
  match getnum2 v10 with
  | none => none
  | some (second, v11) =>
  if 60 ≤ second then none else
  match fracStep v11 with
  | (ns, v12) =>
  if v12 ≠ [] then none
  else if day < 1 ∨ daysIn month year < day then none
  else some ⟨year, month, day, hour, minute, second, ns⟩

/-- Decimal digits, most significant first, with a fuel bound on the number
of divisions (the fuel-exhausted arm is unreachable once the fuel is at
least the value). -/
def fullDigitsGo : Nat → Nat → List Char
  | 0, n => [digitCh n]
  | fuel + 1, n => if n < 10 then [digitCh n] else fullDigitsGo fuel (n / 10) ++ [digitCh (n % 10)]

/-- Decimal digits of `n`, most significant first, as Go's integer
formatting produces them. -/
def fullDigits (n : Nat) : List Char :=
  fullDigitsGo n n

/-- Go's `appendInt(b, x, w)` on a non-negative value: decimal digits,
zero-padded on the left to width `w`. -/
def padInt (n w : Nat) : List Char :=
  List.replicate (w - (fullDigits n).length) '0' ++ fullDigits n

/-- Go `t.Format(time.DateTime)`: the timestamp rendered back through the
layout `2006-01-02 15:04:05` (four-digit year, two-digit month, day, hour,
minute and second; the nanoseconds are not rendered). -/
def goFormatDateTime (t : GoTime) : List Char :=
  padInt t.year 4 ++ ['-'] ++ padInt t.month 2 ++ ['-'] ++ padInt t.day 2 ++
    [' '] ++ padInt t.hour 2 ++ [':'] ++ padInt t.minute 2 ++ [':'] ++
    padInt t.second 2

/-- Splitting off the text before the first separator, together with the
text after it, when the separator occurs. -/
def splitFirst : List Char → Char → Option (List Char × List Char)
  | [], _ => none
  | c :: cs, sep =>
    if c = sep then some ([], cs)
    else
      match splitFirst cs sep with
      | none => none
      | some (pre, post) => some (c :: pre, post)

/-- Go `strings.SplitN(s, sep, n)` for a one-character separator and `n > 0`:
at most `n` substrings, the last one holding the unsplit remainder. -/
def goSplitN (s : List Char) (sep : Char) : Nat → List (List Char)
  | 0 => []
  | 1 => [s]
  | n + 2 =>
    match splitFirst s sep with
    | none => [s]
    | some (pre, post) => pre :: goSplitN post sep (n + 1)

/-- Structured log entry of the program: timestamp, level, message. -/
structure LogEntry where
  time : GoTime
  level : List Char
  message : List Char
deriving DecidableEq

/-- Zero value of `LogEntry`: zero timestamp, empty level, empty message. -/
def LogEntry.zero : LogEntry := ⟨GoTime.zero, [], []⟩

/-- Function `NewLogEntry` of main.go: split the line on the first three
spaces into date, time, level and message; fewer than four fields is the
error `invalid log entry`; a date+time that `time.Parse` rejects is the
error `invalid log time`; otherwise the entry carries the parsed timestamp,
the level verbatim and the message remainder. -/
def NewLogEntry (line : List Char) : Except (List Char) LogEntry :=
  let logLine := goSplitN line ' ' 4
  if h : logLine.length < 4 then Except.error ("invalid log entry".data)
  else
    let logDate := logLine.get ⟨0, by omega⟩
    let logTime := logLine.get ⟨1, by omega⟩
    let level := logLine.get ⟨2, by omega⟩
    let msg := logLine.get ⟨3, by omega⟩
    match goParseDateTime (logDate ++ [' '] ++ logTime) with
    | none => Except.error ("invalid log time".data)
    | some t => Except.ok ⟨t, level, msg⟩

deriving instance DecidableEq for Except

/-- Go `strings.HasSuffix(s, suffix)`. -/
def goHasSuffix (s suffix : List Char) : Bool :=
  decide (suffix.length ≤ s.length) &&
    decide (s.drop (s.length - suffix.length) = suffix)

/-- Go `strings.TrimSuffix(s, suffix)`. -/
def goTrimSuffix (s suffix : List Char) : List Char :=
  if goHasSuffix s suffix then s.take (s.length - suffix.length) else s

/-- Go `strings.Split(s, sep)` for a one-character separator: every field,
empty fields included; the result always has at least one element. -/
def goSplitAll : List Char → Char → List (List Char)
  | [], _ => [[]]
  | c :: cs, sep =>
    if c = sep then [] :: goSplitAll cs sep
    else
      match goSplitAll cs sep with
      | [] => [[c]]
      | w :: ws => (c :: w) :: ws

/-- Optional leading sign: `true` means negative. -/
def readSign : List Char → Bool × List Char
  | [] => (false, [])
  | c :: rest =>
    if c = '+' then (false, rest)
    else if c = '-' then (true, rest)
    else (false, c :: rest)

/-- Optional fractional part: a point followed by the fraction digits. -/
def fracDigits : List Char → List Nat × List Char
  | [] => ([], [])
  | c :: rest => if c = '.' then takeDigits rest else ([], c :: rest)

/-- Go `strconv.ParseFloat(s, 64)` on its finite decimal fragment
(optional sign, digits with an optional point, optional `e`/`E` exponent),
with the value kept exact as a rational rather than rounded to the nearest
binary float.  The special spellings `inf`/`infinity`/`nan`, hexadecimal
floats and digit-group underscores are not modelled; no accepted spelling
in any of those fragments ends in the letter `s` either, which is the only
fact about them the claims depend on. -/
def goParseFloat (s : List Char) : Option ℚ :=
  match readSign s with
  | (neg, s1) =>
  match takeDigits s1 with
  | (ids, s2) =>
  match fracDigits s2 with
  | (fds, s3) =>
  if ids = [] ∧ fds = [] then none
  else
    let mant : ℚ := ((digitsVal (ids ++ fds) : Nat) : ℚ) / (10 : ℚ) ^ fds.length
    let signed : ℚ := if neg then -mant else mant
    match s3 with
    | [] => some signed
    | e :: rest =>
      if e = 'e' ∨ e = 'E' then
        match readSign rest with
        | (eneg, r1) =>
        match takeDigits r1 with
        | (eds, r2) =>
        if eds = [] ∨ r2 ≠ [] then none
        else
          some (signed * (10 : ℚ) ^ (if eneg then -(digitsVal eds : ℤ) else (digitsVal eds : ℤ)))
      else none

/-- Go `strings.ToLower` on the ASCII case mapping (the four level names the
program compares against are ASCII). -/
def toLowerGo (s : List Char) : List Char :=
  s.map (fun c => if 'A' ≤ c ∧ c ≤ 'Z' then Char.ofNat (c.toNat + 32) else c)

/-- Level-name constants of main.go. -/
def LevelInfo : List Char := "info".data

/-- Level-name constant `LevelWarn`. -/
def LevelWarn : List Char := "warn".data

/-- Level-name constant `LevelError`. -/
def LevelError : List Char := "error".data

/-- Level-name constant `LevelDebug`. -/
def LevelDebug : List Char := "debug".data

/-- The accumulator `AnalysisReport` of main.go.  The Go map
`MsgFrequency map[string]int` is modelled as an association list in
insertion order (absent keys stand for the zero count); Go's map iteration
order is unspecified, and the list order stands for one such order. -/
structure AnalysisReport where
  TotalEntries : Nat
  Info : Nat
  Warn : Nat
  Error : Nat
  Debug : Nat
  ResponseTime : List ℚ
  MsgFrequency : List (List Char × Nat)
deriving DecidableEq

/-- The report `Analyze` starts from: `&AnalysisReport{MsgFrequency: make(...)}`. -/
def AnalysisReport.empty : AnalysisReport := ⟨0, 0, 0, 0, 0, [], []⟩

/-- Go `report.MsgFrequency[msg]++`: a missing key has the zero count. -/
def bumpFreq : List (List Char × Nat) → List Char → List (List Char × Nat)
  | [], msg => [(msg, 1)]
  | (k, v) :: rest, msg =>
    if k = msg then (k, v + 1) :: rest else (k, v) :: bumpFreq rest msg

/-- Method `Add` of `AnalysisReport` (main.go lines 164-190): count the
entry; bump the per-level counter selected by the lower-cased level when it
is one of the four known names; when the message ends in `ms`, split the
message with the `" ms"` suffix trimmed on spaces and append the last word
to the samples when it parses as a float; bump the message's frequency. -/
def AnalysisReport.Add (report : AnalysisReport) (entry : LogEntry) : AnalysisReport :=
  let report := { report with TotalEntries := report.TotalEntries + 1 }
  let l := toLowerGo entry.level
  let report :=
    if l = LevelInfo then { report with Info := report.Info + 1 }
    else if l = LevelWarn then { report with Warn := report.Warn + 1 }
    else if l = LevelError then { report with Error := report.Error + 1 }
    else if l = LevelDebug then { report with Debug := report.Debug + 1 }
    else report
  let report :=
    if goHasSuffix entry.message ("ms".data) then
      let words := goSplitAll (goTrimSuffix entry.message (" ms".data)) ' '
      let respTime := words.getLastD []
      match goParseFloat respTime with
      | some n => { report with ResponseTime := report.ResponseTime ++ [n] }
      | none => report
    else report
  { report with MsgFrequency := bumpFreq report.MsgFrequency entry.message }

/-- Filter predicate type of main.go: `true` asks to skip the entry. -/
def FilterFunc : Type := LogEntry → Bool

/-- The inner loop of `Analyze` (main.go lines 111-115): each iteration
evaluates `skip(entry)` and the `continue` statement merely advances the
inner loop, so no iteration changes any state; the loop's denotation is the
trivial value. -/
def runFilterLoop : List FilterFunc → LogEntry → Unit
  | [], _ => ()
  | f :: fs, e =>
    let _ := f e
    runFilterLoop fs e

/-- Function `Analyze` of main.go: fresh report, then for each entry the
filter loop runs (with no effect, see `runFilterLoop`) and the entry is
added. -/
def Analyze (entries : List LogEntry) (filter : List FilterFunc) : AnalysisReport :=
  entries.foldl
    (fun report entry =>
      let _ := runFilterLoop filter entry
      report.Add entry)
    AnalysisReport.empty

/-- One iteration of the scanner loop in `ReadFile` (main.go lines 126-133):
on error the line is logged, and the `LogEntry{}` zero value that
`NewLogEntry` returned alongside the error is what the loop then appends. -/
def readLine (line : List Char) : LogEntry :=
  match NewLogEntry line with
  | Except.ok e => e
  | Except.error _ => LogEntry.zero

/-- Function `ReadFile` of main.go over the file's list of lines: every
scanned line appends one entry (`readLine`) to the slice, parse errors
included. -/
def ReadFile (lines : List (List Char)) : List LogEntry :=
  lines.foldl (fun entries line => entries ++ [readLine line]) []

/-- Rounding to the nearest integer with ties to even. -/
def roundHalfEven (x : ℚ) : ℤ :=
  let n := Int.floor x
  let r := x - n
  if r < 1 / 2 then n else if 1 / 2 < r then n + 1 else if n % 2 = 0 then n else n + 1

/-- Two-decimal rendering of a non-negative rational. -/
def fmtF2abs (q : ℚ) : List Char :=
  let n := (roundHalfEven (q * 100)).toNat
  fullDigits (n / 100) ++ ['.'] ++ padInt (n % 100) 2

/-- Rendering of `fmt.Printf("%.2f", x)` for a value held exactly as a
rational: sign, then two-decimal fixed point, nearest with ties to even. -/
def fmtF2 (q : ℚ) : List Char :=
  if q < 0 then '-' :: fmtF2abs (-q) else fmtF2abs q

/-- The average-response-time output of `Print` (main.go lines 204-211):
emitted only when at least one sample exists, and then showing
`total / count` to two decimals with the `ms` suffix. -/
def avgOutput (r : AnalysisReport) : Option (List Char) :=
  if 0 < r.ResponseTime.length then
    some (fmtF2 (r.ResponseTime.sum / (r.ResponseTime.length : ℚ)) ++ " ms".data)
  else none

/-- Go slice indexing with an integer index: `none` models the
out-of-bounds panic. -/
def goIndexInt {α : Type} (l : List α) (i : ℤ) : Option α :=
  if h : 0 ≤ i ∧ i.toNat < l.length then some (l.get ⟨i.toNat, h.2⟩) else none

/-- The `freqCount` slice of `Print` (main.go lines 213-217): the frequency
values, sorted ascending (`sort.Ints`). -/
def sortedFreqCounts (r : AnalysisReport) : List Nat :=
  List.insertionSort (· ≤ ·) (r.MsgFrequency.map Prod.snd)

/-- The last key in traversal order whose count equals the target,
starting from the empty string: what the `freqMsg` loop of `Print`
computes once every iteration's slice access returns `target`. -/
def freqMsgSel (r : AnalysisReport) (target : Nat) : List Char :=
  r.MsgFrequency.foldl (fun acc kv => if kv.2 = target then kv.1 else acc) []

/-- The `freqMsg` loop of `Print` (main.go lines 218-223): one iteration
per entry of `r.MsgFrequency`, and only inside the loop body is the slice
expression `freqCount[len(freqCount)-1]` evaluated (an out-of-bounds
access there panics, propagated as `none`); `freqMsg` starts as the empty
string, so zero iterations evaluate no access and yield the empty string. -/
def freqMsgLoop (r : AnalysisReport) : Option (List Char) :=
  r.MsgFrequency.foldl
    (fun acc kv =>
      match acc, goIndexInt (sortedFreqCounts r) (((sortedFreqCounts r).length : ℤ) - 1) with
      | none, _ => none
      | _, none => none
      | some freqMsg, some target => some (if kv.2 = target then kv.1 else freqMsg))
    (some [])

theorem charDigit?_eq_some {c : Char} {d : Nat} (h : charDigit? c = some d) :
    digitCh d = c ∧ d < 10 := by
  unfold charDigit? at h
  split_ifs at h <;>
    first
      | exact Option.noConfusion h
      | (injection h with hd; subst hd; subst_vars; exact ⟨rfl, by omega⟩)

theorem digitCh_ne_space (d : Nat) : digitCh d ≠ ' ' := by
  unfold digitCh; split <;> decide

theorem Add_eq (r : AnalysisReport) (e : LogEntry) :
    r.Add e = { r with
      TotalEntries := r.TotalEntries + 1
      Info := if toLowerGo e.level = LevelInfo then r.Info + 1 else r.Info
      Warn := if toLowerGo e.level ≠ LevelInfo ∧ toLowerGo e.level = LevelWarn then r.Warn + 1 else r.Warn
      Error := if toLowerGo e.level ≠ LevelInfo ∧ toLowerGo e.level ≠ LevelWarn ∧ toLowerGo e.level = LevelError then r.Error + 1 else r.Error
      Debug := if toLowerGo e.level ≠ LevelInfo ∧ toLowerGo e.level ≠ LevelWarn ∧ toLowerGo e.level ≠ LevelError ∧ toLowerGo e.level = LevelDebug then r.Debug + 1 else r.Debug
      ResponseTime := if goHasSuffix e.message ("ms".data) then
          (match goParseFloat ((goSplitAll (goTrimSuffix e.message (" ms".data)) ' ').getLastD []) with
           | some n => r.ResponseTime ++ [n] | none => r.ResponseTime)
        else r.ResponseTime
      MsgFrequency := bumpFreq r.MsgFrequency e.message } := by
  rcases r with ⟨t, i, w, er, d, rt, mf⟩
  unfold AnalysisReport.Add
  dsimp only
  split_ifs <;> (try split) <;> simp_all [LevelInfo, LevelWarn, LevelError, LevelDebug]

theorem Add_TotalEntries (r : AnalysisReport) (e : LogEntry) :
    (r.Add e).TotalEntries = r.TotalEntries + 1 := by
  rw [Add_eq]

theorem Add_levelSum_le (r : AnalysisReport) (e : LogEntry) :
    (r.Add e).Info + (r.Add e).Warn + (r.Add e).Error + (r.Add e).Debug ≤
      r.Info + r.Warn + r.Error + r.Debug + 1 := by
  simp only [Add_eq]
  split_ifs <;> first | omega | tauto

theorem foldl_Add_TotalEntries (entries : List LogEntry) :
    ∀ r : AnalysisReport,
      (entries.foldl AnalysisReport.Add r).TotalEntries = r.TotalEntries + entries.length := by
  induction entries with
  | nil => intro r; simp
  | cons e es ih =>
    intro r
    rw [List.foldl_cons, ih, Add_TotalEntries, List.length_cons]
    omega

theorem foldl_Add_levelSum (entries : List LogEntry) :
    ∀ r : AnalysisReport,
      (entries.foldl AnalysisReport.Add r).Info + (entries.foldl AnalysisReport.Add r).Warn +
          (entries.foldl AnalysisReport.Add r).Error + (entries.foldl AnalysisReport.Add r).Debug ≤
        r.Info + r.Warn + r.Error + r.Debug + entries.length := by
  induction entries with
  | nil => intro r; simp
  | cons e es ih =>
    intro r
    rw [List.foldl_cons, List.length_cons]
    calc _ ≤ (r.Add e).Info + (r.Add e).Warn + (r.Add e).Error + (r.Add e).Debug + es.length :=
          ih (r.Add e)
      _ ≤ r.Info + r.Warn + r.Error + r.Debug + 1 + es.length :=
          Nat.add_le_add_right (Add_levelSum_le r e) es.length
      _ = r.Info + r.Warn + r.Error + r.Debug + (es.length + 1) := by omega

/-- C1: for every list of entries and every filter configuration, `Analyze`
adds every entry to the report — the filter loop is a no-op — so the
resulting report's `TotalEntries` equals the length of the input list
regardless of the filters supplied. -/
theorem analyze_counts_all_entries (entries : List LogEntry) (filter : List FilterFunc) :
    Analyze entries filter = entries.foldl AnalysisReport.Add AnalysisReport.empty ∧
    (Analyze entries filter).TotalEntries = entries.length := by
  have h : Analyze entries filter = entries.foldl AnalysisReport.Add AnalysisReport.empty := rfl
  refine ⟨h, ?_⟩
  rw [h, foldl_Add_TotalEntries]
  simp [AnalysisReport.empty]

/-- C5: `Add` increments exactly the per-level counter named by the entry's
lower-cased level when that is one of info, warn, error, debug, and no
per-level counter otherwise, while the entry always counts toward the
total; aggregating entries with levels INFO, info, WARN, error yields
Info=2, Warn=1, Error=1, Debug=0, TotalEntries=4. -/
theorem add_level_counters (r : AnalysisReport) (e : LogEntry) :
    ((r.Add e).TotalEntries = r.TotalEntries + 1) ∧
    ((r.Add e).Info = if toLowerGo e.level = LevelInfo then r.Info + 1 else r.Info) ∧
    ((r.Add e).Warn = if toLowerGo e.level = LevelWarn then r.Warn + 1 else r.Warn) ∧
    ((r.Add e).Error = if toLowerGo e.level = LevelError then r.Error + 1 else r.Error) ∧
    ((r.Add e).Debug = if toLowerGo e.level = LevelDebug then r.Debug + 1 else r.Debug) ∧
    ((List.foldl AnalysisReport.Add AnalysisReport.empty
        [⟨GoTime.zero, "INFO".data, []⟩, ⟨GoTime.zero, "info".data, []⟩,
         ⟨GoTime.zero, "WARN".data, []⟩, ⟨GoTime.zero, "error".data, []⟩]).Info = 2 ∧
      (List.foldl AnalysisReport.Add AnalysisReport.empty
        [⟨GoTime.zero, "INFO".data, []⟩, ⟨GoTime.zero, "info".data, []⟩,
         ⟨GoTime.zero, "WARN".data, []⟩, ⟨GoTime.zero, "error".data, []⟩]).Warn = 1 ∧
      (List.foldl AnalysisReport.Add AnalysisReport.empty
        [⟨GoTime.zero, "INFO".data, []⟩, ⟨GoTime.zero, "info".data, []⟩,
         ⟨GoTime.zero, "WARN".data, []⟩, ⟨GoTime.zero, "error".data, []⟩]).Error = 1 ∧
      (List.foldl AnalysisReport.Add AnalysisReport.empty
        [⟨GoTime.zero, "INFO".data, []⟩, ⟨GoTime.zero, "info".data, []⟩,
         ⟨GoTime.zero, "WARN".data, []⟩, ⟨GoTime.zero, "error".data, []⟩]).Debug = 0 ∧
      (List.foldl AnalysisReport.Add AnalysisReport.empty
        [⟨GoTime.zero, "INFO".data, []⟩, ⟨GoTime.zero, "info".data, []⟩,
         ⟨GoTime.zero, "WARN".data, []⟩, ⟨GoTime.zero, "error".data, []⟩]).TotalEntries = 4) := by
  refine ⟨Add_TotalEntries r e, ?_, ?_, ?_, ?_, by decide⟩
  all_goals simp only [Add_eq]
  all_goals (split_ifs <;> try rfl)
  all_goals simp_all [LevelInfo, LevelWarn, LevelError, LevelDebug]

/-- C6: starting from the empty report, after any sequence of `Add` calls
`TotalEntries` equals the number of calls and the per-level counters sum to
at most `TotalEntries`; each `Add` increments `TotalEntries` by exactly one
and the counter sum by at most one. -/
theorem report_counter_invariant (entries : List LogEntry) :
    ((entries.foldl AnalysisReport.Add AnalysisReport.empty).TotalEntries = entries.length) ∧
    ((entries.foldl AnalysisReport.Add AnalysisReport.empty).Info +
        (entries.foldl AnalysisReport.Add AnalysisReport.empty).Warn +
        (entries.foldl AnalysisReport.Add AnalysisReport.empty).Error +
        (entries.foldl AnalysisReport.Add AnalysisReport.empty).Debug ≤
      (entries.foldl AnalysisReport.Add AnalysisReport.empty).TotalEntries) ∧
    ∀ (r : AnalysisReport) (e : LogEntry),
      (r.Add e).TotalEntries = r.TotalEntries + 1 ∧
      (r.Add e).Info + (r.Add e).Warn + (r.Add e).Error + (r.Add e).Debug ≤
        r.Info + r.Warn + r.Error + r.Debug + 1 := by
  have ht := foldl_Add_TotalEntries entries AnalysisReport.empty
  have hs := foldl_Add_levelSum entries AnalysisReport.empty
  refine ⟨by rw [ht]; simp [AnalysisReport.empty], ?_,
    fun r e => ⟨Add_TotalEntries r e, Add_levelSum_le r e⟩⟩
  rw [ht]
  simp only [AnalysisReport.empty] at hs ⊢
  omega

theorem goHasSuffix_iff {s suf : List Char} : goHasSuffix s suf = true ↔ ∃ pre, s = pre ++ suf := by
  unfold goHasSuffix
  simp only [Bool.and_eq_true, decide_eq_true_eq]
  constructor
  · rintro ⟨hlen, hdrop⟩
    have h := List.take_append_drop (s.length - suf.length) s
    rw [hdrop] at h
    exact ⟨s.take (s.length - suf.length), h.symm⟩
  · rintro ⟨pre, rfl⟩
    refine ⟨by simp, ?_⟩
    have h : (pre ++ suf).length - suf.length = pre.length := by simp
    rw [h, List.drop_left]

theorem goTrimSuffix_append (pre suf : List Char) : goTrimSuffix (pre ++ suf) suf = pre := by
  unfold goTrimSuffix
  rw [if_pos (goHasSuffix_iff.mpr ⟨pre, rfl⟩)]
  have h : (pre ++ suf).length - suf.length = pre.length := by simp
  rw [h, List.take_left]

theorem goTrimSuffix_of_not {s suf : List Char} (h : ¬ goHasSuffix s suf = true) :
    goTrimSuffix s suf = s := by
  unfold goTrimSuffix
  rw [if_neg h]

theorem goSplitAll_ne_nil (s : List Char) (sep : Char) : goSplitAll s sep ≠ [] := by
  induction s with
  | nil => simp [goSplitAll]
  | cons c cs ih =>
    unfold goSplitAll
    split_ifs
    · simp
    · cases hg : goSplitAll cs sep <;> simp

theorem goSplitAll_last_ends {x sep : Char} (hx : ¬ x = sep) :
    ∀ s : List Char, ∃ w, (goSplitAll (s ++ [x]) sep).getLastD [] = w ++ [x] := by
  intro s
  induction s with
  | nil =>
    refine ⟨[], ?_⟩
    simp [goSplitAll, hx]
  | cons c cs ih =>
    obtain ⟨w, hw⟩ := ih
    by_cases hc : c = sep
    · refine ⟨w, ?_⟩
      rw [List.cons_append]
      unfold goSplitAll
      rw [if_pos hc, List.getLastD_cons]
      exact hw
    · rw [List.cons_append]
      unfold goSplitAll
      rw [if_neg hc]
      rcases hg : goSplitAll (cs ++ [x]) sep with _ | ⟨w', ws⟩
      · exact absurd hg (goSplitAll_ne_nil _ _)
      · rcases ws with _ | ⟨z, zs⟩
        · refine ⟨c :: w, ?_⟩
          rw [hg] at hw
          rw [List.getLastD_cons, List.getLastD_nil] at hw
          rw [List.getLastD_cons, List.getLastD_nil, hw]
          rfl
        · refine ⟨w, ?_⟩
          rw [hg] at hw
          rw [List.getLastD_cons, List.getLastD_cons] at hw
          rw [List.getLastD_cons, List.getLastD_cons]
          exact hw

theorem takeDigits_decomp (s : List Char) :
    ∃ pre, s = pre ++ (takeDigits s).2 ∧ ∀ c ∈ pre, (charDigit? c).isSome := by
  induction s with
  | nil => exact ⟨[], rfl, by simp⟩
  | cons c cs ih =>
    cases hc : charDigit? c with
    | none => exact ⟨[], by simp [takeDigits, hc], by simp⟩
    | some d =>
      obtain ⟨pre, hpre, hall⟩ := ih
      rcases htd : takeDigits cs with ⟨ds, rest⟩
      rw [htd] at hpre
      refine ⟨c :: pre, ?_, ?_⟩
      · simp only [takeDigits, hc, htd, List.cons_append]
        exact congrArg (c :: ·) hpre
      · intro c' hc'
        rcases List.mem_cons.mp hc' with rfl | hmem
        · simp [hc]
        · exact hall c' hmem

theorem readSign_decomp (s : List Char) :
    ∃ pre, s = pre ++ (readSign s).2 ∧ ∀ c ∈ pre, c = '+' ∨ c = '-' := by
  cases s with
  | nil => exact ⟨[], rfl, by simp⟩
  | cons c rest =>
    simp only [readSign]
    split_ifs with h1 h2
    · exact ⟨[c], by simp [h1], by simp [h1]⟩
    · exact ⟨[c], by simp [h2], by simp [h2]⟩
    · exact ⟨[], rfl, by simp⟩

theorem fracDigits_decomp (s : List Char) :
    ∃ pre, s = pre ++ (fracDigits s).2 ∧ ∀ c ∈ pre, c = '.' ∨ (charDigit? c).isSome := by
  cases s with
  | nil => exact ⟨[], rfl, by simp⟩
  | cons c rest =>
    simp only [fracDigits]
    split_ifs with h1
    · obtain ⟨pre, hpre, hall⟩ := takeDigits_decomp rest
      refine ⟨c :: pre, ?_, ?_⟩
      · rw [List.cons_append]
        exact congrArg (c :: ·) hpre
      · intro c' hc'
        rcases List.mem_cons.mp hc' with rfl | hmem
        · exact Or.inl h1
        · exact Or.inr (hall c' hmem)
    · exact ⟨[], rfl, by simp⟩

theorem goParseFloat_chars {s : List Char} {q : ℚ} (h : goParseFloat s = some q) :
    ∀ c ∈ s, ((charDigit? c).isSome ∨ c = '+' ∨ c = '-' ∨ c = '.' ∨ c = 'e' ∨ c = 'E') := by
  unfold goParseFloat at h
  obtain ⟨pre1, hp1, ha1⟩ := readSign_decomp s
  rcases h1 : readSign s with ⟨neg, s1⟩
  rw [h1] at h hp1
  dsimp only at h hp1
  obtain ⟨pre2, hp2, ha2⟩ := takeDigits_decomp s1
  rcases h2 : takeDigits s1 with ⟨ids, s2⟩
  rw [h2] at h hp2
  dsimp only at h hp2
  obtain ⟨pre3, hp3, ha3⟩ := fracDigits_decomp s2
  rcases h3 : fracDigits s2 with ⟨fds, s3⟩
  rw [h3] at h hp3
  dsimp only at h hp3
  by_cases h0 : ids = [] ∧ fds = []
  · rw [if_pos h0] at h
    exact absurd h (by simp)
  rw [if_neg h0] at h
  rcases s3 with _ | ⟨e, rest⟩
  · dsimp only at h
    subst hp3 hp2 hp1
    intro c hc
    simp only [List.append_nil, List.mem_append] at hc
    rcases hc with hc | hc | hc
    · rcases ha1 c hc with rfl | rfl <;> decide
    · exact Or.inl (ha2 c hc)
    · rcases ha3 c hc with rfl | hd
      · decide
      · exact Or.inl hd
  · dsimp only at h
    by_cases he : e = 'e' ∨ e = 'E'
    swap
    · rw [if_neg he] at h
      exact absurd h (by simp)
    rw [if_pos he] at h
    obtain ⟨pre4, hp4, ha4⟩ := readSign_decomp rest
    rcases h4 : readSign rest with ⟨eneg, r1⟩
    rw [h4] at h hp4
    dsimp only at h hp4
    obtain ⟨pre5, hp5, ha5⟩ := takeDigits_decomp r1
    rcases h5 : takeDigits r1 with ⟨eds, r2⟩
    rw [h5] at h hp5
    dsimp only at h hp5
    by_cases hend : eds = [] ∨ r2 ≠ []
    · rw [if_pos hend] at h
      exact absurd h (by simp)
    have hr2 : r2 = [] := by
      rcases not_or.mp hend with ⟨_, h'⟩
      simpa using h'
    subst hr2
    rw [List.append_nil] at hp5
    subst hp5 hp4 hp3 hp2 hp1
    intro c hc
    simp only [List.mem_append, List.mem_cons] at hc
    rcases hc with hc | hc | hc | rfl | hc | hc
    · rcases ha1 c hc with rfl | rfl <;> decide
    · exact Or.inl (ha2 c hc)
    · rcases ha3 c hc with h' | h'
      · exact Or.inr (Or.inr (Or.inr (Or.inl h')))
      · exact Or.inl h'
    · rcases he with rfl | rfl <;> decide
    · rcases ha4 c hc with rfl | rfl <;> decide
    · exact Or.inl (ha5 c hc)

theorem goParseFloat_of_mem_s {s : List Char} (hs : 's' ∈ s) : goParseFloat s = none := by
  cases hq : goParseFloat s with
  | none => rfl
  | some q => exact absurd (goParseFloat_chars hq 's' hs) (by decide)

theorem Add_ResponseTime (r : AnalysisReport) (e : LogEntry) :
    (r.Add e).ResponseTime =
      if goHasSuffix e.message ("ms".data) then
        (match goParseFloat ((goSplitAll (goTrimSuffix e.message (" ms".data)) ' ').getLastD []) with
         | some n => r.ResponseTime ++ [n]
         | none => r.ResponseTime)
      else r.ResponseTime := by
  simp only [Add_eq]

theorem hasSuffix_ms_of_space_ms {msg : List Char} (h : goHasSuffix msg (" ms".data) = true) :
    goHasSuffix msg ("ms".data) = true := by
  obtain ⟨pre, rfl⟩ := goHasSuffix_iff.mp h
  refine goHasSuffix_iff.mpr ⟨pre ++ [' '], ?_⟩
  simp

/-- C4: `Add` appends a response-time sample exactly when the message ends
with the literal suffix `" ms"` and the last space-delimited token of the
message with that suffix stripped parses as a floating-point number; the
appended value is the parsed number, failures append nothing, and the
message `"request handled 123.45 ms"` records the sample 123.45. -/
theorem add_response_time_samples (r : AnalysisReport) (e : LogEntry) :
    (∀ q : ℚ,
        goHasSuffix e.message (" ms".data) = true →
        goParseFloat ((goSplitAll (goTrimSuffix e.message (" ms".data)) ' ').getLastD []) = some q →
        (r.Add e).ResponseTime = r.ResponseTime ++ [q]) ∧
    (¬ (goHasSuffix e.message (" ms".data) = true ∧
          (goParseFloat ((goSplitAll (goTrimSuffix e.message (" ms".data)) ' ').getLastD [])).isSome = true) →
        (r.Add e).ResponseTime = r.ResponseTime) ∧
    (AnalysisReport.empty.Add ⟨GoTime.zero, [], "request handled 123.45 ms".data⟩).ResponseTime
      = [(123.45 : ℚ)] := by
  refine ⟨?_, ?_, ?_⟩
  case refine_3 =>
    have hms : goHasSuffix ("request handled 123.45 ms".data) ("ms".data) = true := by decide
    have htok : (goSplitAll (goTrimSuffix ("request handled 123.45 ms".data) (" ms".data)) ' ').getLastD []
        = "123.45".data := by decide
    have hval : goParseFloat ("123.45".data)
        = some (((digitsVal ([1, 2, 3] ++ [4, 5]) : ℕ) : ℚ) / (10 : ℚ) ^ ([4, 5] : List ℕ).length) := rfl
    have hpf : goParseFloat ("123.45".data) = some (123.45 : ℚ) := by
      rw [hval]
      norm_num [digitsVal]
    rw [Add_ResponseTime]
    dsimp only
    rw [if_pos hms, htok, hpf]
    simp [AnalysisReport.empty]
  · intro q hsuf hq
    rw [Add_ResponseTime, if_pos (hasSuffix_ms_of_space_ms hsuf), hq]
  · intro hno
    rw [Add_ResponseTime]
    by_cases hms : goHasSuffix e.message ("ms".data) = true
    · rw [if_pos hms]
      by_cases hsp : goHasSuffix e.message (" ms".data) = true
      · cases hpf : goParseFloat ((goSplitAll (goTrimSuffix e.message (" ms".data)) ' ').getLastD []) with
        | none => rfl
        | some q => exact absurd ⟨hsp, by rw [hpf]; rfl⟩ hno
      · rw [goTrimSuffix_of_not hsp]
        obtain ⟨pre, hpre⟩ := goHasSuffix_iff.mp hms
        have hms' : e.message = (pre ++ ['m']) ++ ['s'] := by simpa using hpre
        rw [hms']
        obtain ⟨w, hw⟩ := @goSplitAll_last_ends 's' ' ' (by decide) (pre ++ ['m'])
        rw [hw, goParseFloat_of_mem_s (by simp)]
    · rw [if_neg hms]

theorem roundHalfEven_intCast (n : ℤ) : roundHalfEven ((n : ℚ)) = n := by
  unfold roundHalfEven
  rw [Int.floor_intCast]
  norm_num

theorem fmtF2_onefifty : fmtF2 (150 : ℚ) = "150.00".data := by
  unfold fmtF2 fmtF2abs
  rw [if_neg (by norm_num : ¬ (150 : ℚ) < 0)]
  have h1 : (150 : ℚ) * 100 = ((15000 : ℤ) : ℚ) := by norm_num
  rw [h1, roundHalfEven_intCast]
  decide

/-- C7: `Print` emits the average-response-time line exactly when at least
one sample was collected, the printed value is the arithmetic mean of the
samples rendered to two decimals with an `ms` suffix, and with samples 100
and 200 it prints `150.00 ms`. -/
theorem print_average_response_time (r : AnalysisReport) :
    ((avgOutput r).isSome = true ↔ r.ResponseTime ≠ []) ∧
    (r.ResponseTime ≠ [] →
      avgOutput r = some (fmtF2 (r.ResponseTime.sum / (r.ResponseTime.length : ℚ)) ++ " ms".data)) ∧
    avgOutput { AnalysisReport.empty with ResponseTime := [100, 200] } = some ("150.00 ms".data) := by
  refine ⟨?_, ?_, ?_⟩
  · unfold avgOutput
    split_ifs with h
    · simp [List.length_pos.mp h]
    · have h0 : r.ResponseTime = [] := by
        rcases List.eq_nil_or_concat r.ResponseTime with h' | ⟨l, a, h'⟩
        · exact h'
        · exact absurd (by rw [h']; simp) h
      simp [h0]
  · intro h
    unfold avgOutput
    rw [if_pos (List.length_pos.mpr h)]
  · unfold avgOutput
    dsimp only
    rw [if_pos (by decide : 0 < ([100, 200] : List ℚ).length)]
    have hsum : (List.sum ([100, 200] : List ℚ)) / ((List.length ([100, 200] : List ℚ)) : ℚ) = 150 := by
      norm_num [List.sum_cons, List.sum_nil]
    rw [hsum, fmtF2_onefifty]
    decide

theorem ReadFile_eq_map (lines : List (List Char)) : ReadFile lines = lines.map readLine := by
  unfold ReadFile
  suffices h : ∀ acc, lines.foldl (fun entries line => entries ++ [readLine line]) acc =
      acc ++ lines.map readLine by
    simpa using h []
  induction lines with
  | nil => intro acc; simp
  | cons l ls ih => intro acc; simp [List.foldl_cons, ih]

/-- C9: `ReadFile` returns exactly one entry per line read, lines that fail
to parse included — those contribute the zero-value `LogEntry` — so the
returned slice is empty exactly when the input has no lines. -/
theorem readfile_entry_per_line (lines : List (List Char)) :
    ((ReadFile lines).length = lines.length) ∧
    (∀ i, i < lines.length → (ReadFile lines).get? i = some (readLine (lines.getD i []))) ∧
    (∀ i err, i < lines.length → NewLogEntry (lines.getD i []) = Except.error err →
      (ReadFile lines).get? i = some LogEntry.zero) ∧
    (ReadFile lines = [] ↔ lines = []) := by
  rw [ReadFile_eq_map]
  have hgd : ∀ i (hi : i < lines.length), lines.getD i [] = lines.get ⟨i, hi⟩ := by
    intro i hi
    rw [List.getD_eq_get?, List.get?_eq_get hi]
    rfl
  refine ⟨by simp, ?_, ?_, by simp⟩
  · intro i hi
    rw [List.get?_map, List.get?_eq_get hi, hgd i hi]
    rfl
  · intro i err hi herr
    rw [List.get?_map, List.get?_eq_get hi]
    rw [hgd i hi] at herr
    simp only [Option.map_some']
    unfold readLine
    rw [herr]

/-- C2 divergence: on the single unparsable line `bad line` the function
returns a one-element slice holding the zero-value entry — the line is
logged but still contributes an entry rather than being skipped. -/
theorem readfile_keeps_invalid_line :
    NewLogEntry ("bad line".data) = Except.error ("invalid log entry".data) ∧
    ReadFile [("bad line".data)] = [LogEntry.zero] ∧
    (ReadFile [("bad line".data)]).length = 1 := by
  refine ⟨by decide, by decide, by decide⟩

theorem Add_MsgFrequency (r : AnalysisReport) (e : LogEntry) :
    (r.Add e).MsgFrequency = bumpFreq r.MsgFrequency e.message := by
  simp only [Add_eq]

theorem bumpFreq_ne_nil (l : List (List Char × Nat)) (msg : List Char) : bumpFreq l msg ≠ [] := by
  cases l with
  | nil => simp [bumpFreq]
  | cons kv rest =>
    rcases kv with ⟨k, v⟩
    unfold bumpFreq
    split_ifs <;> simp

theorem foldl_Add_MsgFrequency_ne_nil (entries : List LogEntry) :
    ∀ r : AnalysisReport, r.MsgFrequency ≠ [] ∨ entries ≠ [] →
      (entries.foldl AnalysisReport.Add r).MsgFrequency ≠ [] := by
  induction entries with
  | nil =>
    intro r h
    rcases h with h | h
    · exact h
    · exact absurd rfl h
  | cons e es ih =>
    intro r _
    rw [List.foldl_cons]
    apply ih
    left
    rw [Add_MsgFrequency]
    exact bumpFreq_ne_nil _ _

theorem foldl_sel_unchanged (t : Nat) :
    ∀ (l : List (List Char × Nat)) (acc : List Char), (∀ kv ∈ l, kv.2 ≠ t) →
      l.foldl (fun acc kv => if kv.2 = t then kv.1 else acc) acc = acc := by
  intro l
  induction l with
  | nil => intro acc _; rfl
  | cons kv rest ih =>
    intro acc hall
    simp only [List.foldl_cons]
    rw [if_neg (hall kv (by simp))]
    exact ih acc (fun kv' h' => hall kv' (by simp [h']))

theorem foldl_sel_mem (t : Nat) :
    ∀ (l : List (List Char × Nat)) (acc : List Char), (∃ kv ∈ l, kv.2 = t) →
      (l.foldl (fun acc kv => if kv.2 = t then kv.1 else acc) acc, t) ∈ l := by
  intro l
  induction l with
  | nil => rintro acc ⟨kv, h, _⟩; cases h
  | cons kv rest ih =>
    intro acc hex
    by_cases hrest : ∃ kv' ∈ rest, kv'.2 = t
    · simp only [List.foldl_cons]
      exact List.mem_cons_of_mem _ (ih _ hrest)
    · have hkv : kv.2 = t := by
        rcases hex with ⟨kv', hmem, ht⟩
        rcases List.mem_cons.mp hmem with rfl | hmem'
        · exact ht
        · exact absurd ⟨kv', hmem', ht⟩ hrest
      simp only [List.foldl_cons]
      have hnone : ∀ kv' ∈ rest, kv'.2 ≠ t := by
        intro kv' h' ht'
        exact hrest ⟨kv', h', ht'⟩
      rw [if_pos hkv, foldl_sel_unchanged t rest _ hnone]
      have hpair : (kv.1, t) = kv := by
        rw [← hkv]
      rw [hpair]
      exact List.mem_cons_self _ _

theorem foldl_loop_some (m : Nat) :
    ∀ (l : List (List Char × Nat)) (acc : List Char),
      l.foldl
        (fun acc kv =>
          match acc, (some m : Option Nat) with
          | none, _ => none
          | _, none => none
          | some freqMsg, some target => some (if kv.2 = target then kv.1 else freqMsg))
        (some acc) =
      some (l.foldl (fun acc kv => if kv.2 = m then kv.1 else acc) acc) := by
  intro l
  induction l with
  | nil => intro acc; rfl
  | cons kv rest ih =>
    intro acc
    rw [List.foldl_cons, List.foldl_cons]
    exact ih _

/-- C10 counterexample: with zero `Add` calls the frequency map is empty,
the `freqMsg` loop of `Print` performs zero iterations, so the indexing
expression `freqCount[len(freqCount)-1]` is never evaluated and the
most-frequent-message computation completes normally with the empty
string — the claimed out-of-bounds access does not occur. -/
theorem most_frequent_message_empty_ok :
    AnalysisReport.empty.MsgFrequency = [] ∧
    freqMsgLoop AnalysisReport.empty = some [] :=
  ⟨rfl, rfl⟩

/-- C10 (amended): after at least one `Add` the message-frequency map is
non-empty, the slice access each loop iteration performs hits a valid
index holding the maximum frequency, and the loop completes selecting a
message whose count equals that maximum; on a report with an empty map
the loop body never runs, so the indexing expression is never evaluated
and the computation completes normally with the empty string. -/
theorem most_frequent_message_access (entries : List LogEntry) :
    (entries ≠ [] →
      (List.foldl AnalysisReport.Add AnalysisReport.empty entries).MsgFrequency ≠ [] ∧
      ∃ m, goIndexInt (sortedFreqCounts (List.foldl AnalysisReport.Add AnalysisReport.empty entries))
          (((sortedFreqCounts (List.foldl AnalysisReport.Add AnalysisReport.empty entries)).length : ℤ) - 1) =
            some m ∧
        (∀ kv ∈ (List.foldl AnalysisReport.Add AnalysisReport.empty entries).MsgFrequency,
          kv.2 ≤ m) ∧
        freqMsgLoop (List.foldl AnalysisReport.Add AnalysisReport.empty entries) =
          some (freqMsgSel (List.foldl AnalysisReport.Add AnalysisReport.empty entries) m) ∧
        (freqMsgSel (List.foldl AnalysisReport.Add AnalysisReport.empty entries) m, m) ∈
          (List.foldl AnalysisReport.Add AnalysisReport.empty entries).MsgFrequency) ∧
    (∀ r : AnalysisReport, r.MsgFrequency = [] → freqMsgLoop r = some []) := by
  constructor
  · intro hne
    have hfreq : (List.foldl AnalysisReport.Add AnalysisReport.empty entries).MsgFrequency ≠ [] :=
      foldl_Add_MsgFrequency_ne_nil entries AnalysisReport.empty (Or.inr hne)
    refine ⟨hfreq, ?_⟩
    have hlen : (sortedFreqCounts (List.foldl AnalysisReport.Add AnalysisReport.empty entries)).length
        = (List.foldl AnalysisReport.Add AnalysisReport.empty entries).MsgFrequency.length := by
      unfold sortedFreqCounts
      rw [List.length_insertionSort, List.length_map]
    have hpos : 0 < (sortedFreqCounts (List.foldl AnalysisReport.Add AnalysisReport.empty entries)).length := by
      rw [hlen]
      exact List.length_pos.mpr hfreq
    have hcond : (0 : ℤ) ≤ ((sortedFreqCounts (List.foldl AnalysisReport.Add AnalysisReport.empty entries)).length : ℤ) - 1 ∧
        (((sortedFreqCounts (List.foldl AnalysisReport.Add AnalysisReport.empty entries)).length : ℤ) - 1).toNat <
          (sortedFreqCounts (List.foldl AnalysisReport.Add AnalysisReport.empty entries)).length := by
      omega
    have hacc : goIndexInt (sortedFreqCounts (List.foldl AnalysisReport.Add AnalysisReport.empty entries))
        (((sortedFreqCounts (List.foldl AnalysisReport.Add AnalysisReport.empty entries)).length : ℤ) - 1) =
          some ((sortedFreqCounts (List.foldl AnalysisReport.Add AnalysisReport.empty entries)).get
            ⟨(((sortedFreqCounts (List.foldl AnalysisReport.Add AnalysisReport.empty entries)).length : ℤ) - 1).toNat,
              hcond.2⟩) := by
      unfold goIndexInt
      rw [dif_pos hcond]
    refine ⟨_, hacc, ?_, ?_, ?_⟩
    · intro kv hkv
      have hmem : kv.2 ∈ sortedFreqCounts (List.foldl AnalysisReport.Add AnalysisReport.empty entries) := by
        unfold sortedFreqCounts
        rw [List.mem_insertionSort]
        exact List.mem_map_of_mem _ hkv
      obtain ⟨j, hj⟩ := List.mem_iff_get.mp hmem
      have hsorted : List.Sorted (· ≤ ·)
          (sortedFreqCounts (List.foldl AnalysisReport.Add AnalysisReport.empty entries)) :=
        List.sorted_insertionSort _ _
      have hle := hsorted.rel_get_of_le (a := j) (b := ⟨_, hcond.2⟩) (by
        apply Fin.mk_le_mk.mpr
        have := j.isLt
        omega)
      rw [hj] at hle
      exact hle
    · unfold freqMsgLoop freqMsgSel
      simp only [hacc]
      exact foldl_loop_some _ _ []
    · have hmem_m : (sortedFreqCounts (List.foldl AnalysisReport.Add AnalysisReport.empty entries)).get
          ⟨_, hcond.2⟩ ∈ (List.foldl AnalysisReport.Add AnalysisReport.empty entries).MsgFrequency.map Prod.snd := by
        have hg : (sortedFreqCounts (List.foldl AnalysisReport.Add AnalysisReport.empty entries)).get
            ⟨_, hcond.2⟩ ∈ sortedFreqCounts (List.foldl AnalysisReport.Add AnalysisReport.empty entries) :=
          List.get_mem _ _ _
        unfold sortedFreqCounts at hg
        rw [List.mem_insertionSort] at hg
        exact hg
      obtain ⟨kv, hkv, hsnd⟩ := List.mem_map.mp hmem_m
      unfold freqMsgSel
      exact foldl_sel_mem _ _ _ ⟨kv, hkv, hsnd⟩
  · intro r hr
    unfold freqMsgLoop
    rw [hr]
    rfl

/-- C3: `NewLogEntry` splits on the first three spaces into date, time,
level and message; it returns `invalid log entry` exactly when fewer than
four fields result, `invalid log time` exactly when date and time joined
by one space do not parse in the `2006-01-02 15:04:05` layout, and
otherwise an entry with the parsed timestamp, the level verbatim and the
untouched message remainder; the line
`2024-01-01 10:00:00 INFO started ok` yields the documented entry. -/
theorem new_log_entry_contract (line : List Char) :
    (NewLogEntry line = Except.error ("invalid log entry".data) ↔
      (goSplitN line ' ' 4).length < 4) ∧
    (NewLogEntry line = Except.error ("invalid log time".data) ↔
      4 ≤ (goSplitN line ' ' 4).length ∧
      goParseDateTime ((goSplitN line ' ' 4).getD 0 [] ++ [' '] ++ (goSplitN line ' ' 4).getD 1 []) = none) ∧
    (∀ t : GoTime,
      4 ≤ (goSplitN line ' ' 4).length →
      goParseDateTime ((goSplitN line ' ' 4).getD 0 [] ++ [' '] ++ (goSplitN line ' ' 4).getD 1 []) = some t →
      NewLogEntry line =
        Except.ok ⟨t, (goSplitN line ' ' 4).getD 2 [], (goSplitN line ' ' 4).getD 3 []⟩) ∧
    NewLogEntry ("2024-01-01 10:00:00 INFO started ok".data) =
      Except.ok ⟨⟨2024, 1, 1, 10, 0, 0, 0⟩, "INFO".data, "started ok".data⟩ := by
  have hex : NewLogEntry ("2024-01-01 10:00:00 INFO started ok".data) =
      Except.ok ⟨⟨2024, 1, 1, 10, 0, 0, 0⟩, "INFO".data, "started ok".data⟩ := by decide
  set l := goSplitN line ' ' 4 with hl
  have hget : ∀ (i : Nat) (hi : i < l.length), l.get ⟨i, hi⟩ = l.getD i [] := by
    intro i hi
    rw [List.getD_eq_get?, List.get?_eq_get hi]
    rfl
  by_cases hlen : l.length < 4
  · have hne : NewLogEntry line = Except.error ("invalid log entry".data) := by
      unfold NewLogEntry
      exact dif_pos hlen
    refine ⟨⟨fun _ => hlen, fun _ => hne⟩, ?_, ?_, hex⟩
    · rw [hne]
      constructor
      · intro hcontra
        injection hcontra with h'
        exact absurd h' (by decide)
      · rintro ⟨h4, _⟩
        omega
    · intro t h4 _
      exact absurd h4 (by omega)
  · have h4 : 4 ≤ l.length := by omega
    have hdef0 : NewLogEntry line =
        (match goParseDateTime (l.get ⟨0, by omega⟩ ++ [' '] ++ l.get ⟨1, by omega⟩) with
          | none => Except.error ("invalid log time".data)
          | some t => Except.ok ⟨t, l.get ⟨2, by omega⟩, l.get ⟨3, by omega⟩⟩) := by
      unfold NewLogEntry
      exact dif_neg hlen
    have hdef : NewLogEntry line =
        (match goParseDateTime (l.getD 0 [] ++ [' '] ++ l.getD 1 []) with
          | none => Except.error ("invalid log time".data)
          | some t => Except.ok ⟨t, l.getD 2 [], l.getD 3 []⟩) := by
      rw [hdef0, hget 0 (by omega), hget 1 (by omega), hget 2 (by omega), hget 3 (by omega)]
    cases hparse : goParseDateTime (l.getD 0 [] ++ [' '] ++ l.getD 1 []) with
    | none =>
      rw [hparse] at hdef
      dsimp only at hdef
      refine ⟨?_, ?_, ?_, hex⟩
      · rw [hdef]
        constructor
        · intro hcontra
          injection hcontra with h'
          exact absurd h' (by decide)
        · intro h'
          omega
      · rw [hdef]
        exact iff_of_true rfl ⟨h4, rfl⟩
      · intro t _ hsome
        cases hsome
    | some t0 =>
      rw [hparse] at hdef
      dsimp only at hdef
      refine ⟨?_, ?_, ?_, hex⟩
      · rw [hdef]
        constructor
        · intro hcontra
          cases hcontra
        · intro h'
          omega
      · rw [hdef]
        constructor
        · intro hcontra
          cases hcontra
        · rintro ⟨_, hnone⟩
          cases hnone
      · intro t _ hsome
        injection hsome with ht
        subst ht
        exact hdef

theorem fullDigitsGo_small {fuel d : Nat} (hd : d < 10) : fullDigitsGo fuel d = [digitCh d] := by
  cases fuel with
  | zero => rfl
  | succ f =>
    unfold fullDigitsGo
    rw [if_pos hd]

theorem fullDigits_lt10 {n : Nat} (h : n < 10) : fullDigits n = [digitCh n] :=
  fullDigitsGo_small h

theorem fullDigitsGo_fuel (n : Nat) :
    ∀ f f' : Nat, n ≤ f → n ≤ f' → fullDigitsGo f n = fullDigitsGo f' n := by
  induction n using Nat.strong_induction_on with
  | _ n ih =>
    intro f f' hf hf'
    by_cases h10 : n < 10
    · rw [fullDigitsGo_small h10, fullDigitsGo_small h10]
    · rcases f with _ | g
      · exact absurd hf (by omega)
      rcases f' with _ | g'
      · exact absurd hf' (by omega)
      unfold fullDigitsGo
      rw [if_neg h10, if_neg h10]
      have hlt : n / 10 < n := by omega
      rw [ih (n / 10) hlt g g' (by omega) (by omega)]

theorem fullDigits_ge10 {n : Nat} (h : 10 ≤ n) :
    fullDigits n = fullDigits (n / 10) ++ [digitCh (n % 10)] := by
  obtain ⟨m, rfl⟩ : ∃ m, n = m + 1 := ⟨n - 1, by omega⟩
  unfold fullDigits
  conv_lhs => unfold fullDigitsGo
  rw [if_neg (by omega)]
  have hlt : (m + 1) / 10 < m + 1 := by omega
  rw [fullDigitsGo_fuel ((m + 1) / 10) m ((m + 1) / 10) (by omega) (by omega)]

theorem fullDigits_append_digit {n d : Nat} (hd : d < 10) (hn : 1 ≤ n) :
    fullDigits (10 * n + d) = fullDigits n ++ [digitCh d] := by
  rw [fullDigits_ge10 (by omega)]
  have hdiv : (10 * n + d) / 10 = n := by omega
  have hmod : (10 * n + d) % 10 = d := by omega
  rw [hdiv, hmod]

theorem padInt_two {d1 d2 : Nat} (h1 : d1 < 10) (h2 : d2 < 10) :
    padInt (10 * d1 + d2) 2 = [digitCh d1, digitCh d2] := by
  by_cases hz : d1 = 0
  · subst hz
    have he : 10 * 0 + d2 = d2 := by omega
    unfold padInt
    rw [he, fullDigits_lt10 h2]
    rfl
  · unfold padInt
    rw [fullDigits_append_digit h2 (by omega), fullDigits_lt10 h1]
    rfl

theorem padInt_four {d1 d2 d3 d4 : Nat} (h1 : d1 < 10) (h2 : d2 < 10) (h3 : d3 < 10) (h4 : d4 < 10) :
    padInt (((d1 * 10 + d2) * 10 + d3) * 10 + d4) 4 =
      [digitCh d1, digitCh d2, digitCh d3, digitCh d4] := by
  have e4 : ((d1 * 10 + d2) * 10 + d3) * 10 + d4 = 10 * ((d1 * 10 + d2) * 10 + d3) + d4 := by ring
  have e3 : (d1 * 10 + d2) * 10 + d3 = 10 * (d1 * 10 + d2) + d3 := by ring
  have e2 : d1 * 10 + d2 = 10 * d1 + d2 := by ring
  by_cases hz1 : d1 = 0
  · subst hz1
    by_cases hz2 : d2 = 0
    · subst hz2
      by_cases hz3 : d3 = 0
      · subst hz3
        have he : ((0 * 10 + 0) * 10 + 0) * 10 + d4 = d4 := by omega
        unfold padInt
        rw [he, fullDigits_lt10 h4]
        rfl
      · have he : ((0 * 10 + 0) * 10 + d3) * 10 + d4 = 10 * d3 + d4 := by omega
        unfold padInt
        rw [he, fullDigits_append_digit h4 (by omega), fullDigits_lt10 h3]
        rfl
    · have he : ((0 * 10 + d2) * 10 + d3) * 10 + d4 = 10 * (10 * d2 + d3) + d4 := by omega
      unfold padInt
      rw [he, fullDigits_append_digit h4 (by omega),
        fullDigits_append_digit h3 (by omega), fullDigits_lt10 h2]
      rfl
  · unfold padInt
    rw [e4, fullDigits_append_digit h4 (by omega), e3,
      fullDigits_append_digit h3 (by omega), e2,
      fullDigits_append_digit h2 (by omega), fullDigits_lt10 h1]
    rfl

theorem getnum2_eq {v : List Char} {n : Nat} {rest : List Char} (h : getnum2 v = some (n, rest)) :
    ∃ d1 d2, d1 < 10 ∧ d2 < 10 ∧ n = 10 * d1 + d2 ∧
      v = digitCh d1 :: digitCh d2 :: rest ∧ padInt n 2 = [digitCh d1, digitCh d2] ∧ n < 100 := by
  match v with
  | [] => exact absurd h (by simp [getnum2])
  | [c1] => exact absurd h (by simp [getnum2])
  | c1 :: c2 :: rest' =>
    unfold getnum2 at h
    dsimp only at h
    cases hc1 : charDigit? c1 with
    | none => rw [hc1] at h; exact absurd h (by simp)
    | some d1 =>
      cases hc2 : charDigit? c2 with
      | none => rw [hc1, hc2] at h; exact absurd h (by simp)
      | some d2 =>
        rw [hc1, hc2] at h
        dsimp only at h
        injection h with h'
        injection h' with hn hrest
        obtain ⟨he1, hd1⟩ := charDigit?_eq_some hc1
        obtain ⟨he2, hd2⟩ := charDigit?_eq_some hc2
        subst hn hrest
        exact ⟨d1, d2, hd1, hd2, rfl, by rw [he1, he2], padInt_two hd1 hd2, by omega⟩

theorem getnum4_eq {v : List Char} {n : Nat} {rest : List Char} (h : getnum4 v = some (n, rest)) :
    ∃ d1 d2 d3 d4, d1 < 10 ∧ d2 < 10 ∧ d3 < 10 ∧ d4 < 10 ∧
      n = ((d1 * 10 + d2) * 10 + d3) * 10 + d4 ∧
      v = digitCh d1 :: digitCh d2 :: digitCh d3 :: digitCh d4 :: rest ∧
      padInt n 4 = [digitCh d1, digitCh d2, digitCh d3, digitCh d4] ∧ n < 10000 := by
  match v with
  | [] => exact absurd h (by simp [getnum4])
  | [c1] => exact absurd h (by simp [getnum4])
  | [c1, c2] => exact absurd h (by simp [getnum4])
  | [c1, c2, c3] => exact absurd h (by simp [getnum4])
  | c1 :: c2 :: c3 :: c4 :: rest' =>
    unfold getnum4 at h
    dsimp only at h
    cases hc1 : charDigit? c1 with
    | none => rw [hc1] at h; exact absurd h (by simp)
    | some d1 =>
    cases hc2 : charDigit? c2 with
    | none => rw [hc1, hc2] at h; exact absurd h (by simp)
    | some d2 =>
    cases hc3 : charDigit? c3 with
    | none => rw [hc1, hc2, hc3] at h; exact absurd h (by simp)
    | some d3 =>
    cases hc4 : charDigit? c4 with
    | none => rw [hc1, hc2, hc3, hc4] at h; exact absurd h (by simp)
    | some d4 =>
      rw [hc1, hc2, hc3, hc4] at h
      dsimp only at h
      injection h with h'
      injection h' with hn hrest
      obtain ⟨he1, hd1⟩ := charDigit?_eq_some hc1
      obtain ⟨he2, hd2⟩ := charDigit?_eq_some hc2
      obtain ⟨he3, hd3⟩ := charDigit?_eq_some hc3
      obtain ⟨he4, hd4⟩ := charDigit?_eq_some hc4
      subst hn hrest
      refine ⟨d1, d2, d3, d4, hd1, hd2, hd3, hd4, rfl, by rw [he1, he2, he3, he4],
        padInt_four hd1 hd2 hd3 hd4, by omega⟩

theorem getnum12_eq {v : List Char} {n : Nat} {rest : List Char} (h : getnum12 v = some (n, rest)) :
    (n < 10 ∧ v = digitCh n :: rest) ∨
    (∃ d1 d2, d1 < 10 ∧ d2 < 10 ∧ n = 10 * d1 + d2 ∧
      v = digitCh d1 :: digitCh d2 :: rest ∧ padInt n 2 = [digitCh d1, digitCh d2]) := by
  match v with
  | [] => exact absurd h (by simp [getnum12])
  | [c1] =>
    unfold getnum12 at h
    dsimp only at h
    cases hc1 : charDigit? c1 with
    | none => rw [hc1] at h; exact absurd h (by simp)
    | some d1 =>
      rw [hc1] at h
      dsimp only at h
      injection h with h'
      injection h' with hn hrest
      obtain ⟨he1, hd1⟩ := charDigit?_eq_some hc1
      subst hn hrest
      exact Or.inl ⟨hd1, by rw [he1]⟩
  | c1 :: c2 :: rest' =>
    unfold getnum12 at h
    dsimp only at h
    cases hc1 : charDigit? c1 with
    | none => rw [hc1] at h; exact absurd h (by simp)
    | some d1 =>
      obtain ⟨he1, hd1⟩ := charDigit?_eq_some hc1
      cases hc2 : charDigit? c2 with
      | none =>
        rw [hc1, hc2] at h
        dsimp only at h
        injection h with h'
        injection h' with hn hrest
        subst hn hrest
        exact Or.inl ⟨hd1, by rw [he1]⟩
      | some d2 =>
        rw [hc1, hc2] at h
        dsimp only at h
        injection h with h'
        injection h' with hn hrest
        obtain ⟨he2, hd2⟩ := charDigit?_eq_some hc2
        subst hn hrest
        exact Or.inr ⟨d1, d2, hd1, hd2, rfl, by rw [he1, he2], padInt_two hd1 hd2⟩

theorem expectChar_eq {c : Char} {v rest : List Char} (h : expectChar c v = some rest) :
    v = c :: rest := by
  match v with
  | [] => exact absurd h (by simp [expectChar])
  | x :: r =>
    unfold expectChar at h
    dsimp only at h
    split_ifs at h with hx
    injection h with h'
    rw [hx, h']

theorem cutspace_no_space {l : List Char} (h : ' ' ∉ l) : cutspace l = l := by
  cases l with
  | nil => rfl
  | cons c rest =>
    unfold cutspace
    rw [if_neg]
    intro hc
    exact h (by rw [hc]; exact List.mem_cons_self _ _)

theorem skipLayoutSpace_eq_some {v rest : List Char} (h : skipLayoutSpace v = some rest) :
    (v = [] ∧ rest = []) ∨ (∃ r, v = ' ' :: r ∧ rest = cutspace r) := by
  match v with
  | [] =>
    left
    refine ⟨rfl, ?_⟩
    injection h with h'
    exact h'.symm
  | c :: r =>
    unfold skipLayoutSpace at h
    dsimp only at h
    split_ifs at h with hc
    right
    injection h with h'
    exact ⟨r, by rw [hc], h'.symm⟩

theorem splitFirst_eq_some {sep : Char} :
    ∀ {s pre post : List Char}, splitFirst s sep = some (pre, post) →
      s = pre ++ sep :: post ∧ sep ∉ pre := by
  intro s
  induction s with
  | nil => intro pre post h; exact absurd h (by simp [splitFirst])
  | cons c cs ih =>
    intro pre post h
    unfold splitFirst at h
    try dsimp only at h
    split_ifs at h with hc
    · injection h with h'
      injection h' with hpre hpost
      subst hc
      rw [← hpre, ← hpost]
      exact ⟨rfl, by simp⟩
    · cases hsp : splitFirst cs sep with
      | none => rw [hsp] at h; exact absurd h (by simp)
      | some pq =>
        rcases pq with ⟨p, q⟩
        rw [hsp] at h
        dsimp only at h
        injection h with h'
        injection h' with hpre hpost
        obtain ⟨hs, hnotin⟩ := ih hsp
        subst hpost
        rw [← hpre]
        constructor
        · rw [List.cons_append, ← hs]
        · intro hmem
          rcases List.mem_cons.mp hmem with rfl | hmem'
          · exact hc rfl
          · exact hnotin hmem'

theorem goSplitN_not_mem_sep (sep : Char) :
    ∀ (N : Nat) (s : List Char) (i : Nat), i + 1 < (goSplitN s sep N).length →
      sep ∉ (goSplitN s sep N).getD i [] := by
  intro N
  induction N with
  | zero => intro s i h; simp [goSplitN] at h
  | succ m ih =>
    intro s i h
    match m with
    | 0 => simp [goSplitN] at h
    | m' + 1 =>
      unfold goSplitN at h ⊢
      cases hsp : splitFirst s sep with
      | none =>
        rw [hsp] at h
        simp at h
      | some pq =>
        rcases pq with ⟨pre, post⟩
        rw [hsp] at h
        dsimp only at h ⊢
        match i with
        | 0 =>
          rw [List.getD_cons_zero]
          exact (splitFirst_eq_some hsp).2
        | j + 1 =>
          rw [List.getD_cons_succ]
          exact ih post j (by simpa using h)

theorem append_cons_eq {x : Char} :
    ∀ (a c b d : List Char), a ++ x :: b = c ++ x :: d → x ∉ a → x ∉ c → a = c ∧ b = d := by
  intro a
  induction a with
  | nil =>
    intro c b d h ha hc
    cases c with
    | nil =>
      simp only [List.nil_append] at h
      injection h with _ h2
      exact ⟨rfl, h2⟩
    | cons y c' =>
      simp only [List.nil_append, List.cons_append] at h
      injection h with h1 _
      exact absurd (by rw [h1]; exact List.mem_cons_self _ _) hc
  | cons a0 a' ih =>
    intro c b d h ha hc
    cases c with
    | nil =>
      simp only [List.cons_append, List.nil_append] at h
      injection h with h1 _
      exact absurd (by rw [← h1]; exact List.mem_cons_self _ _) ha
    | cons y c' =>
      simp only [List.cons_append] at h
      injection h with h1 h2
      obtain ⟨he, hb⟩ := ih c' b d h2 (fun hm => ha (List.mem_cons_of_mem _ hm))
        (fun hm => hc (List.mem_cons_of_mem _ hm))
      exact ⟨by rw [h1, he], hb⟩

theorem fracStep_nil : fracStep [] = (0, []) := rfl

theorem fracStep_single (x : Char) : fracStep [x] = (0, [x]) := rfl

theorem NewLogEntry_ok_parse {line : List Char} {t : GoTime} {lv msg : List Char}
    (hok : NewLogEntry line = Except.ok ⟨t, lv, msg⟩) :
    4 ≤ (goSplitN line ' ' 4).length ∧
      goParseDateTime
        ((goSplitN line ' ' 4).getD 0 [] ++ [' '] ++ (goSplitN line ' ' 4).getD 1 []) = some t ∧
      lv = (goSplitN line ' ' 4).getD 2 [] ∧ msg = (goSplitN line ' ' 4).getD 3 [] := by
  have hget : ∀ (i : Nat) (hi : i < (goSplitN line ' ' 4).length),
      (goSplitN line ' ' 4).get ⟨i, hi⟩ = (goSplitN line ' ' 4).getD i [] := by
    intro i hi
    rw [List.getD_eq_get?, List.get?_eq_get hi]
    rfl
  by_cases hlen : (goSplitN line ' ' 4).length < 4
  · have herr : NewLogEntry line = Except.error ("invalid log entry".data) := by
      unfold NewLogEntry
      exact dif_pos hlen
    rw [herr] at hok
    exact absurd hok (by simp)
  · have h4 : 4 ≤ (goSplitN line ' ' 4).length := by omega
    have hdef : NewLogEntry line =
        (match goParseDateTime ((goSplitN line ' ' 4).get ⟨0, by omega⟩ ++ [' '] ++
            (goSplitN line ' ' 4).get ⟨1, by omega⟩) with
          | none => Except.error ("invalid log time".data)
          | some t => Except.ok ⟨t, (goSplitN line ' ' 4).get ⟨2, by omega⟩,
              (goSplitN line ' ' 4).get ⟨3, by omega⟩⟩) := by
      unfold NewLogEntry
      exact dif_neg hlen
    rw [hget 0 (by omega), hget 1 (by omega), hget 2 (by omega), hget 3 (by omega)] at hdef
    cases hparse : goParseDateTime
        ((goSplitN line ' ' 4).getD 0 [] ++ [' '] ++ (goSplitN line ' ' 4).getD 1 []) with
    | none =>
      rw [hparse] at hdef
      dsimp only at hdef
      rw [hdef] at hok
      exact absurd hok (by simp)
    | some t0 =>
      rw [hparse] at hdef
      dsimp only at hdef
      rw [hdef] at hok
      injection hok with h'
      injection h' with h1 h2 h3
      exact ⟨h4, congrArg some h1, h2.symm, h3.symm⟩

set_option maxHeartbeats 1600000 in
/-- C8 (amended): for every line that `NewLogEntry` parses successfully and
whose date/time substring — the first two space-delimited fields joined by
one space — is nineteen characters long (so the hour is written with two
digits and no fractional second is present), re-serializing the entry's
timestamp through the `2006-01-02 15:04:05` layout reproduces that
substring character for character. -/
theorem parse_format_roundtrip (line : List Char) (t : GoTime) (lv msg : List Char)
    (hok : NewLogEntry line = Except.ok ⟨t, lv, msg⟩)
    (hlen : ((goSplitN line ' ' 4).getD 0 [] ++ [' '] ++ (goSplitN line ' ' 4).getD 1 []).length = 19) :
    goFormatDateTime t =
      (goSplitN line ' ' 4).getD 0 [] ++ [' '] ++ (goSplitN line ' ' 4).getD 1 [] := by
  obtain ⟨h4, hparse, -, -⟩ := NewLogEntry_ok_parse hok
  set f0 := (goSplitN line ' ' 4).getD 0 [] with hf0def
  set f1 := (goSplitN line ' ' 4).getD 1 [] with hf1def
  have hf0 : ' ' ∉ f0 := goSplitN_not_mem_sep ' ' 4 line 0 (by omega)
  have hf1 : ' ' ∉ f1 := goSplitN_not_mem_sep ' ' 4 line 1 (by omega)
  unfold goParseDateTime at hparse
  cases hy : getnum4 (f0 ++ [' '] ++ f1) with
  | none => rw [hy] at hparse; exact absurd hparse (by simp)
  | some p =>
  rcases p with ⟨year, v1⟩
  rw [hy] at hparse
  dsimp only at hparse
  cases he1 : expectChar '-' v1 with
  | none => rw [he1] at hparse; exact absurd hparse (by simp)
  | some v2 =>
  rw [he1] at hparse
  dsimp only at hparse
  cases hm : getnum2 v2 with
  | none => rw [hm] at hparse; exact absurd hparse (by simp)
  | some p =>
  rcases p with ⟨month, v3⟩
  rw [hm] at hparse
  dsimp only at hparse
  by_cases hmr : month < 1 ∨ 12 < month
  · rw [if_pos hmr] at hparse; exact absurd hparse (by simp)
  rw [if_neg hmr] at hparse
  cases he2 : expectChar '-' v3 with
  | none => rw [he2] at hparse; exact absurd hparse (by simp)
  | some v4 =>
  rw [he2] at hparse
  dsimp only at hparse
  cases hd : getnum2 v4 with
  | none => rw [hd] at hparse; exact absurd hparse (by simp)
  | some p =>
  rcases p with ⟨day, v5⟩
  rw [hd] at hparse
  dsimp only at hparse
  cases hsk : skipLayoutSpace v5 with
  | none => rw [hsk] at hparse; exact absurd hparse (by simp)
  | some v6 =>
  rw [hsk] at hparse
  dsimp only at hparse
  cases hh7 : getnum12 v6 with
  | none => rw [hh7] at hparse; exact absurd hparse (by simp)
  | some p =>
  rcases p with ⟨hour, v7⟩
  rw [hh7] at hparse
  dsimp only at hparse
  by_cases hhr : 24 ≤ hour
  · rw [if_pos hhr] at hparse; exact absurd hparse (by simp)
  rw [if_neg hhr] at hparse
  cases he3 : expectChar ':' v7 with
  | none => rw [he3] at hparse; exact absurd hparse (by simp)
  | some v8 =>
  rw [he3] at hparse
  dsimp only at hparse
  cases hmin2 : getnum2 v8 with
  | none => rw [hmin2] at hparse; exact absurd hparse (by simp)
  | some p =>
  rcases p with ⟨minute, v9⟩
  rw [hmin2] at hparse
  dsimp only at hparse
  by_cases hminr : 60 ≤ minute
  · rw [if_pos hminr] at hparse; exact absurd hparse (by simp)
  rw [if_neg hminr] at hparse
  cases he4 : expectChar ':' v9 with
  | none => rw [he4] at hparse; exact absurd hparse (by simp)
  | some v10 =>
  rw [he4] at hparse
  dsimp only at hparse
  cases hsec2 : getnum2 v10 with
  | none => rw [hsec2] at hparse; exact absurd hparse (by simp)
  | some p =>
  rcases p with ⟨second, v11⟩
  rw [hsec2] at hparse
  dsimp only at hparse
  by_cases hsecr : 60 ≤ second
  · rw [if_pos hsecr] at hparse; exact absurd hparse (by simp)
  rw [if_neg hsecr] at hparse
  rcases hfs : fracStep v11 with ⟨ns, v12⟩
  rw [hfs] at hparse
  dsimp only at hparse
  by_cases hv12 : v12 ≠ []
  · rw [if_pos hv12] at hparse; exact absurd hparse (by simp)
  rw [if_neg hv12] at hparse
  by_cases hdayr : day < 1 ∨ daysIn month year < day
  · rw [if_pos hdayr] at hparse; exact absurd hparse (by simp)
  rw [if_neg hdayr] at hparse
  injection hparse with ht
  subst ht
  have hv12nil : v12 = [] := by
    by_contra hc
    exact hv12 hc
  -- decompose the consumed text
  obtain ⟨y1, y2, y3, y4, hy1, hy2, hy3, hy4, hyear, hveq, hypad, hylt⟩ := getnum4_eq hy
  have hv1 := expectChar_eq he1
  obtain ⟨m1, m2, hm1, hm2, hmonth, hv2eq, hmpad, hmlt⟩ := getnum2_eq hm
  have hv3 := expectChar_eq he2
  obtain ⟨a1, a2, ha1, ha2, hdayv, hv4eq, hapad, halt⟩ := getnum2_eq hd
  have hblob : f0 ++ ' ' :: f1 =
      digitCh y1 :: digitCh y2 :: digitCh y3 :: digitCh y4 :: '-' :: digitCh m1 ::
        digitCh m2 :: '-' :: digitCh a1 :: digitCh a2 :: v5 := by
    have h' : f0 ++ [' '] ++ f1 = f0 ++ ' ' :: f1 := by simp
    rw [← h', hveq, hv1, hv2eq, hv3, hv4eq]
  rcases skipLayoutSpace_eq_some hsk with ⟨hv5nil, hv6nil⟩ | ⟨r5, hv5eq, hv6eq⟩
  · rw [hv6nil] at hh7
    exact absurd hh7 (by simp [getnum12])
  · subst hv5eq
    subst hv6eq
    have hblob2 : f0 ++ ' ' :: f1 =
        [digitCh y1, digitCh y2, digitCh y3, digitCh y4, '-', digitCh m1,
          digitCh m2, '-', digitCh a1, digitCh a2] ++ ' ' :: r5 := by
      rw [hblob]
      rfl
    have hPnospace : ' ' ∉ [digitCh y1, digitCh y2, digitCh y3, digitCh y4, '-', digitCh m1,
        digitCh m2, '-', digitCh a1, digitCh a2] := by
      intro hmem
      simp only [List.mem_cons, List.not_mem_nil, or_false] at hmem
      rcases hmem with h | h | h | h | h | h | h | h | h | h
      · exact digitCh_ne_space y1 h.symm
      · exact digitCh_ne_space y2 h.symm
      · exact digitCh_ne_space y3 h.symm
      · exact digitCh_ne_space y4 h.symm
      · exact absurd h (by decide)
      · exact digitCh_ne_space m1 h.symm
      · exact digitCh_ne_space m2 h.symm
      · exact absurd h (by decide)
      · exact digitCh_ne_space a1 h.symm
      · exact digitCh_ne_space a2 h.symm
    obtain ⟨hf0P, hf1r5⟩ := append_cons_eq f0 _ f1 r5 hblob2 hf0 hPnospace
    rw [← hf1r5, cutspace_no_space hf1] at hh7
    have hf0len : f0.length = 10 := by rw [hf0P]; rfl
    have hf1len : f1.length = 8 := by
      rw [List.length_append, List.length_append, hf0len] at hlen
      simp only [List.length_cons, List.length_nil] at hlen
      omega
    have hv7 := expectChar_eq he3
    obtain ⟨n1, n2, hn1, hn2, hminute, hv8eq, hnpad, hnlt⟩ := getnum2_eq hmin2
    have hv9 := expectChar_eq he4
    obtain ⟨s1, s2, hs1, hs2, hsecond, hv10eq, hspad, hslt⟩ := getnum2_eq hsec2
    rcases getnum12_eq hh7 with ⟨hhlt10, hf1eq⟩ | ⟨b1, b2, hb1, hb2, hhour, hf1eq, hhpad⟩
    · -- single-digit hour: the remaining fractional text cannot vanish
      exfalso
      have hlenchain : f1.length = 7 + v11.length := by
        rw [hf1eq, hv7, hv8eq, hv9, hv10eq]
        simp only [List.length_cons, List.length_nil]
        omega
      have hv11len : v11.length = 1 := by omega
      rcases v11 with _ | ⟨x, xs⟩
      · simp at hv11len
      · have hxs : xs = [] := by
          simp at hv11len
          exact hv11len
        subst hxs
        rw [fracStep_single] at hfs
        injection hfs with _ hv12eq
        rw [← hv12eq] at hv12nil
        cases hv12nil
    · -- two-digit hour: no fractional text remains
      have hlenchain : f1.length = 8 + v11.length := by
        rw [hf1eq, hv7, hv8eq, hv9, hv10eq]
        simp only [List.length_cons, List.length_nil]
        omega
      have hv11nil : v11 = [] := by
        have : v11.length = 0 := by omega
        exact List.length_eq_zero.mp this
      subst hv11nil
      rw [fracStep_nil] at hfs
      injection hfs with hns _
      subst hns
      unfold goFormatDateTime
      dsimp only
      rw [hypad, hmpad, hapad, hhpad, hnpad, hspad, hf0P, hf1eq, hv7, hv8eq, hv9, hv10eq]
      simp

/-- C8 counterexample: the line `2024-01-01 9:05:06 INFO x` parses
successfully — the layout accepts a single-digit hour — yet re-serializing
the timestamp yields `2024-01-01 09:05:06`, which differs character for
character from the original date/time substring `2024-01-01 9:05:06`. -/
theorem parse_format_roundtrip_counterexample :
    NewLogEntry ("2024-01-01 9:05:06 INFO x".data) =
      Except.ok ⟨⟨2024, 1, 1, 9, 5, 6, 0⟩, "INFO".data, ['x']⟩ ∧
    (goSplitN ("2024-01-01 9:05:06 INFO x".data) ' ' 4).getD 0 [] ++ [' '] ++
      (goSplitN ("2024-01-01 9:05:06 INFO x".data) ' ' 4).getD 1 [] = "2024-01-01 9:05:06".data ∧
    goFormatDateTime ⟨2024, 1, 1, 9, 5, 6, 0⟩ ≠ "2024-01-01 9:05:06".data := by
  refine ⟨by decide, by decide, by decide⟩

/-- Witness for the amended round-trip on a fully zero-padded line. -/
theorem parse_format_roundtrip_witness :
    goFormatDateTime ⟨2024, 1, 1, 10, 0, 0, 0⟩ =
      (goSplitN ("2024-01-01 10:00:00 INFO started ok".data) ' ' 4).getD 0 [] ++ [' '] ++
        (goSplitN ("2024-01-01 10:00:00 INFO started ok".data) ' ' 4).getD 1 [] :=
  parse_format_roundtrip ("2024-01-01 10:00:00 INFO started ok".data) ⟨2024, 1, 1, 10, 0, 0, 0⟩
    ("INFO".data) ("started ok".data) (by decide) (by decide)

/-- Witness for the parser contract at a concrete line. -/
theorem new_log_entry_contract_witness :
    NewLogEntry ("2024-01-01 10:00:00 INFO started ok".data) =
      Except.ok ⟨⟨2024, 1, 1, 10, 0, 0, 0⟩,
        (goSplitN ("2024-01-01 10:00:00 INFO started ok".data) ' ' 4).getD 2 [],
        (goSplitN ("2024-01-01 10:00:00 INFO started ok".data) ' ' 4).getD 3 []⟩ :=
  (new_log_entry_contract ("2024-01-01 10:00:00 INFO started ok".data)).2.2.1
    ⟨2024, 1, 1, 10, 0, 0, 0⟩ (by decide) (by decide)

/-- Witness for the response-time rule on a message with no sample. -/
theorem add_response_time_samples_witness :
    (AnalysisReport.empty.Add ⟨GoTime.zero, [], ['x']⟩).ResponseTime =
      AnalysisReport.empty.ResponseTime :=
  (add_response_time_samples AnalysisReport.empty ⟨GoTime.zero, [], ['x']⟩).2.1 (by decide)

/-- Witness for the average line at two concrete samples. -/
theorem print_average_response_time_witness :
    avgOutput { AnalysisReport.empty with ResponseTime := [100, 200] } =
      some (fmtF2 ((List.sum ([100, 200] : List ℚ)) /
        ((List.length ([100, 200] : List ℚ) : ℕ) : ℚ)) ++ " ms".data) :=
  (print_average_response_time { AnalysisReport.empty with ResponseTime := [100, 200] }).2.1
    (by simp)

/-- Witness for the per-line behavior of `ReadFile` on an invalid line. -/
theorem readfile_entry_per_line_witness :
    (ReadFile [("bad line".data)]).get? 0 = some LogEntry.zero :=
  (readfile_entry_per_line [("bad line".data)]).2.2.1 0 ("invalid log entry".data)
    (by decide) (by decide)

/-- Witness for the most-frequent-message computation, on one entry and on
the empty report. -/
theorem most_frequent_message_access_witness :
    ((List.foldl AnalysisReport.Add AnalysisReport.empty
        [(⟨GoTime.zero, [], ['a']⟩ : LogEntry)]).MsgFrequency ≠ [] ∧
      ∃ m, goIndexInt (sortedFreqCounts (List.foldl AnalysisReport.Add AnalysisReport.empty
          [(⟨GoTime.zero, [], ['a']⟩ : LogEntry)]))
          (((sortedFreqCounts (List.foldl AnalysisReport.Add AnalysisReport.empty
            [(⟨GoTime.zero, [], ['a']⟩ : LogEntry)])).length : ℤ) - 1) = some m ∧
        (∀ kv ∈ (List.foldl AnalysisReport.Add AnalysisReport.empty
            [(⟨GoTime.zero, [], ['a']⟩ : LogEntry)]).MsgFrequency, kv.2 ≤ m) ∧
        freqMsgLoop (List.foldl AnalysisReport.Add AnalysisReport.empty
            [(⟨GoTime.zero, [], ['a']⟩ : LogEntry)]) =
          some (freqMsgSel (List.foldl AnalysisReport.Add AnalysisReport.empty
            [(⟨GoTime.zero, [], ['a']⟩ : LogEntry)]) m) ∧
        (freqMsgSel (List.foldl AnalysisReport.Add AnalysisReport.empty
            [(⟨GoTime.zero, [], ['a']⟩ : LogEntry)]) m, m) ∈
          (List.foldl AnalysisReport.Add AnalysisReport.empty
            [(⟨GoTime.zero, [], ['a']⟩ : LogEntry)]).MsgFrequency) ∧
    freqMsgLoop AnalysisReport.empty = some [] :=
  ⟨(most_frequent_message_access [(⟨GoTime.zero, [], ['a']⟩ : LogEntry)]).1 (by decide),
    (most_frequent_message_access []).2 AnalysisReport.empty rfl⟩
